import Mathlib

/-!
Verification of the leech_bot download core.

This file is a shallow embedding, in Lean 4, of the parts of the
`pvtLeechbot` repository that the specification talks about:

* `bot/downloader.py` — filename sanitization (`sanitize_filename`),
  URL filename extraction (`extract_filename_from_url`), the metadata
  probe step, and the chunked streaming loop of `download_file` with its
  progress percentages and failure cleanup;
* `bot/validators.py` — the per-user rate limiter (`check_rate_limit`);
* `bot/handlers.py` — the progress-throttling bridge
  (`progress_callback`).

Python strings are modelled as `List Char` (wrapped in `String` at the
interface), wall-clock times (`time.time()`) as rationals, byte counts
as naturals, and the filesystem as a predicate on paths recording which
paths hold a file.  Percentages follow the source expression
`math.floor(received / total_size * 100)`, embedded as the exact
rational floor (Python float rounding is not modelled).
-/

namespace LeechBot

/-! ## Filename sanitization (`downloader.sanitize_filename`) -/

/-- Characters replaced by `_` in `sanitize_filename`: the regex class
`[<>:"/\\|?*\x00-\x1f]` from `downloader.py` line 28. -/
def isIllegalChar (c : Char) : Bool :=
  c = '<' || c = '>' || c = ':' || c = '"' || c = '/' || c = '\\' ||
  c = '|' || c = '?' || c = '*' || c.toNat ≤ 0x1f

/-- The `re.sub(r'[<>:"/\\|?*\x00-\x1f]', '_', filename)` step. -/
def replaceIllegal (l : List Char) : List Char :=
  l.map (fun c => if isIllegalChar c then '_' else c)

/-- Membership in the strip set of `filename.strip('. ')`. -/
def isDotSpace (c : Char) : Bool :=
  c = '.' || c = ' '

/-- Python `str.strip('. ')`: remove leading and trailing dots and
spaces. -/
def stripDotSpace (l : List Char) : List Char :=
  ((l.dropWhile isDotSpace).reverse.dropWhile isDotSpace).reverse

/-- The fixed fallback name used by the downloader. -/
def defaultName : List Char := "downloaded_file".data

/-- Python `os.path.splitext` (posix), specialised to inputs without a
path separator (true for every call site here, since `/` has already
been replaced by `_`): split at the last dot, except that a name whose
characters before that dot are all dots has no extension. -/
def splitextL (l : List Char) : List Char × List Char :=
  let ds := l.reverse.takeWhile (fun c => c ≠ '.')
  if ds.length = l.length then (l, [])
  else
    let nameLen := l.length - (ds.length + 1)
    if (l.take nameLen).all (fun c => c = '.') then (l, [])
    else (l.take nameLen, l.drop nameLen)

/-- `downloader.sanitize_filename`, on character lists: replace illegal
characters, strip dots and spaces, substitute the default name when
empty, and when longer than 255 truncate the base name to 250
characters keeping the extension (`name[:250] + ext`). -/
def sanitizeL (l : List Char) : List Char :=
  let f1 := replaceIllegal l
  let f2 := stripDotSpace f1
  let f3 := if f2 = [] then defaultName else f2
  if 255 < f3.length then (splitextL f3).1.take 250 ++ (splitextL f3).2
  else f3

/-- `downloader.sanitize_filename` on `String`. -/
def sanitize_filename (s : String) : String :=
  ⟨sanitizeL s.data⟩

/-! ## URL filename extraction (`downloader.extract_filename_from_url`) -/

/-- Python `str.split(sep)` for a one-character separator: split on
every occurrence, keeping empty segments; the result is never empty. -/
def pySplit (sep : Char) : List Char → List (List Char)
  | [] => [[]]
  | c :: cs =>
    if c = sep then [] :: pySplit sep cs
    else
      match pySplit sep cs with
      | t :: ts => (c :: t) :: ts
      | [] => [[c]]

/-- `downloader.extract_filename_from_url`: last `/`-segment of the
URL (`url.split('/')`, `path_parts[-1]` with the `"downloaded_file"`
fallback for an empty list), query stripped (`filename.split('?')[0]`),
default substituted when empty, then sanitized.  `pySplit` never
returns `[]`, so the `none` branches mirror Python dead code. -/
def extract_filename_from_url (url : String) : String :=
  let pathParts := pySplit '/' url.data
  let f1 :=
    match pathParts.getLast? with
    | some f => f
    | none => defaultName
  let f2 :=
    match (pySplit '?' f1).head? with
    | some f => f
    | none => []
  let f3 := if f2 = [] then defaultName else f2
  ⟨sanitizeL f3⟩

/-- Spec-side resolver, following the words of the specification: take
the last path segment of the URL, strip any query string, fall back to
the fixed default name when empty, and sanitize. -/
def specLastSegment (l : List Char) : List Char :=
  (l.reverse.takeWhile (fun c => c ≠ '/')).reverse

/-- Spec-side query stripping: the part of the segment before the first
`?`. -/
def specStripQuery (l : List Char) : List Char :=
  l.takeWhile (fun c => c ≠ '?')

/-- Spec-side filename resolution for the no-header case, assembled
from the specification's words. -/
def specResolveName (url : String) : String :=
  let seg := specStripQuery (specLastSegment url.data)
  ⟨sanitizeL (if seg = [] then defaultName else seg)⟩

/-! ## Rate limiter (`validators.check_rate_limit`) -/

/-- `REQUEST_COOLDOWN = 10` seconds, from `validators.py`. -/
def REQUEST_COOLDOWN : ℚ := 10

/-- Python `int()` applied to a real number: truncation toward zero. -/
def pyTrunc (q : ℚ) : ℤ :=
  if 0 ≤ q then ⌊q⌋ else ⌈q⌉

/-- The `user_last_request` map: user id to timestamp of the last
admitted request; `none` for users never admitted
(`user_last_request.get(user_id, 0)` reads the default `0`). -/
abbrev RateState := ℤ → Option ℚ

/-- `validators.check_rate_limit`, with the global map and the clock
made explicit: returns the new map together with
`(is_allowed, seconds_to_wait)`.  A rejected call returns before the
`user_last_request[user_id] = current_time` assignment. -/
def check_rate_limit (st : RateState) (user : ℤ) (now : ℚ) :
    RateState × Bool × ℤ :=
  let last := (st user).getD 0
  let timePassed := now - last
  if timePassed < REQUEST_COOLDOWN then
    (st, false, pyTrunc (REQUEST_COOLDOWN - timePassed))
  else
    (fun u => if u = user then some now else st u, true, 0)

/-! ## Progress bridge (`handlers.progress_callback`) -/

/-- `MIN_EDIT_DELAY = 2.0` seconds, from `handlers.py`. -/
def MIN_EDIT_DELAY : ℚ := 2

/-- The throttling core of `handlers.progress_callback` for one job,
run over a list of `(time, percent)` events.  The state is the job's
entry in `last_update_time` (`get(msg_key, 0)` defaults to `0`).  An
event inside the delay window with percent below 100 returns early —
dropped, with the timestamp unchanged; otherwise the timestamp is set
to the event's time and the event is forwarded. -/
def bridgeRun : ℚ → List (ℚ × ℕ) → List (ℚ × ℕ)
  | _, [] => []
  | last, (t, p) :: rest =>
    if t - last < MIN_EDIT_DELAY ∧ p < 100 then bridgeRun last rest
    else (t, p) :: bridgeRun t rest

/-! ## Streaming progress loop (`downloader.download_file`, lines
155-173) -/

/-- The percentage expression
`math.floor(received / total_size * 100)`, embedded over exact
rationals. -/
def pct (total received : ℕ) : ℕ :=
  ⌊(received : ℚ) / (total : ℚ) * 100⌋₊

/-- The chunk loop of `download_file`: for each chunk, empty chunks are
skipped (`if chunk:`), `received` grows by the chunk size, and when the
total size is known and positive the percentage is computed and
reported whenever it strictly exceeds `last_percent`.  Returns the
reported percentages and the final `last_percent`. -/
def dlLoop (total : ℕ) : List ℕ → ℕ → ℤ → List ℕ × ℤ
  | [], _, last => ([], last)
  | c :: cs, received, last =>
    if c = 0 then dlLoop total cs received last
    else
      let r := received + c
      if 0 < total then
        let p := pct total r
        if last < (p : ℤ) then
          let rest := dlLoop total cs r (p : ℤ)
          (p :: rest.1, rest.2)
        else dlLoop total cs r last
      else dlLoop total cs r last

/-- The full progress-event stream of `download_file` for one
transfer: the chunk loop starting from `received = 0` and
`last_percent = -1`, followed by the forced final `100` when the total
is known and the loop stopped short of 100. -/
def downloadProgress (total : ℕ) (chunks : List ℕ) : List ℕ :=
  let res := dlLoop total chunks 0 (-1)
  if 0 < total ∧ res.2 < 100 then res.1 ++ [100] else res.1

/-! ## Metadata probe (`downloader.download_file`, lines 108-129) -/

/-- ASCII whitespace stripped by Python's `int(str)` before parsing. -/
def isPySpace (c : Char) : Bool :=
  c = ' ' || c = '\t' || c = '\n' || c = '\r' || c = '\x0b' || c = '\x0c'

/-- Python's built-in `int(str)` as used on header values: optional
surrounding whitespace, an optional sign, then decimal digits
(digit-grouping underscores and non-ASCII digits are not modelled);
`none` when the literal is invalid, where Python raises `ValueError`. -/
def pyInt (s : String) : Option ℤ :=
  let t := ((s.data.dropWhile isPySpace).reverse.dropWhile isPySpace).reverse
  let core : ℤ × List Char :=
    match t with
    | '-' :: rest => (-1, rest)
    | '+' :: rest => (1, rest)
    | l => (1, l)
  if core.2 = [] then none
  else if core.2.all Char.isDigit then
    some (core.1 * (core.2.foldl (fun acc c => acc * 10 + (c.toNat - 48)) 0 : ℕ))
  else none

/-- Errors raised by `download_file`.  `httpError` and `parseError` are
both Python `ValueError`s (the former from the `raise_for_status`
handler, the latter from `int()` on a malformed `Content-Length`);
`runtimeError` is the `RequestException` catch-all. -/
inductive DlError
  | timeoutError
  | httpError (status : ℕ)
  | connectionError
  | runtimeError
  | osError
  | parseError
deriving DecidableEq, Repr

/-- Outcome of the HEAD request: either a `RequestException`, or a
response, abstracted to the two reads the code performs on it —
`extract_filename_from_headers(head_response.headers)` (the
Content-Disposition filename, `none` when absent) and the raw
`Content-Length` header value (`none` when absent). -/
inductive Probe
  | reqFailure
  | response (cdFilename : Option String) (contentLength : Option String)

/-- The probe step of `download_file` (lines 108-129): on a
`RequestException` the filename falls back to the URL and the total
size to 0; on a response, the header filename is preferred and
`int(headers.get('Content-Length', 0))` is evaluated, raising
`ValueError` (uncaught by the surrounding `except`) when the header is
present but not an integer literal. -/
def probeStep (url : String) (p : Probe) : Except DlError (String × ℤ) :=
  match p with
  | .reqFailure => .ok (extract_filename_from_url url, 0)
  | .response cdFilename contentLength =>
    let filename :=
      match cdFilename with
      | some f => f
      | none => extract_filename_from_url url
    match contentLength with
    | none => .ok (filename, 0)
    | some v =>
      match pyInt v with
      | some n => .ok (filename, n)
      | none => .error .parseError

/-! ## Transfer failure cleanup (`downloader.download_file`, lines
139-210) -/

/-- The filesystem, reduced to which paths currently hold a file. -/
abbrev FS := String → Bool

/-- Creating/writing the file at a path (`open(local_path, 'wb')` and
subsequent chunk writes). -/
def fsWrite (fs : FS) (p : String) : FS :=
  fun q => if q = p then true else fs q

/-- `os.remove(p)`. -/
def fsRemove (fs : FS) (p : String) : FS :=
  fun q => if q = p then false else fs q

/-- The cleanup fragment shared by every `except` branch:
`if os.path.exists(local_path): os.remove(local_path)`. -/
def cleanupPartial (fs : FS) (p : String) : FS :=
  if fs p then fsRemove fs p else fs

/-- `os.path.join(tempfile.gettempdir(), filename)` for a sanitized
(separator-free) filename. -/
def pathJoin (dir filename : String) : String :=
  if dir.endsWith "/" then dir ++ filename else dir ++ "/" ++ filename

/-- The classified failure kinds of the GET/streaming phase, matching
the five `except` clauses of `download_file`. -/
inductive FailKind
  | timeout
  | httpStatus (status : ℕ)
  | connection
  | requestOther
  | osWrite
deriving DecidableEq

/-- Which error each `except` clause raises: `Timeout → TimeoutError`,
`HTTPError → ValueError`, `ConnectionError → ConnectionError`,
`RequestException → RuntimeError`, `OSError → OSError`. -/
def classify : FailKind → DlError
  | .timeout => .timeoutError
  | .httpStatus s => .httpError s
  | .connection => .connectionError
  | .requestOther => .runtimeError
  | .osWrite => .osError

/-- How the GET/streaming phase of one call ends: complete body;
failure before the local file is opened (connect failure, timeout, or
`raise_for_status` — `open` has not run); or failure after `open`, with
the chunk sizes written so far. -/
inductive TransferResult
  | ok (chunks : List ℕ)
  | failRequest (k : FailKind)
  | failStream (written : List ℕ) (k : FailKind)

/-- `downloader.download_file`, over the modelled filesystem: resolve
the filename and total via the probe (a `parseError` there propagates
before any path is touched), compute the local path, then either write
the file (success), or run the matching `except` branch — delete any
file at the local path and raise the classified error. -/
def download_file (fs : FS) (url tempDir : String) (probe : Probe)
    (tr : TransferResult) : FS × Except DlError String :=
  match probeStep url probe with
  | .error e => (fs, .error e)
  | .ok (filename, _total) =>
    let localPath := pathJoin tempDir filename
    match tr with
    | .ok _chunks => (fsWrite fs localPath, .ok localPath)
    | .failRequest k =>
      (cleanupPartial fs localPath, .error (classify k))
    | .failStream _written k =>
      (cleanupPartial (fsWrite fs localPath) localPath, .error (classify k))

/-! ## Percentage lemmas -/

/-- The source expression `floor(received / total * 100)` over exact
arithmetic agrees with integer floor division `received * 100 / total`
(also at `total = 0`, where both sides are `0`). -/
theorem pct_eq (total received : ℕ) :
    pct total received = received * 100 / total := by
  unfold pct
  rcases Nat.eq_zero_or_pos total with h | h
  · subst h; simp
  · rw [div_mul_eq_mul_div,
      show ((received : ℚ) * 100) = ((received * 100 : ℕ) : ℚ) by push_cast; ring,
      Nat.floor_div_nat, Nat.floor_natCast]

theorem pct_self {total : ℕ} (ht : 0 < total) : pct total total = 100 := by
  rw [pct_eq]
  exact Nat.mul_div_cancel_left 100 ht

theorem pct_le_100 {total received : ℕ} (ht : 0 < total)
    (hr : received ≤ total) : pct total received ≤ 100 := by
  rw [pct_eq]
  calc received * 100 / total ≤ total * 100 / total :=
        Nat.div_le_div_right (Nat.mul_le_mul_right 100 hr)
    _ = 100 := Nat.mul_div_cancel_left 100 ht

theorem pct_lt_100 {total received : ℕ} (ht : 0 < total)
    (hr : received < total) : pct total received < 100 := by
  rw [pct_eq, Nat.div_lt_iff_lt_mul ht]
  omega

/-! ## Chunk-loop lemmas -/

theorem dlLoop_zero_total :
    ∀ (chunks : List ℕ) (received : ℕ) (last : ℤ),
      dlLoop 0 chunks received last = ([], last) := by
  intro chunks
  induction chunks with
  | nil => intro received last; rfl
  | cons c cs ih =>
    intro received last
    simp only [dlLoop]
    split
    · exact ih received last
    · simp only [Nat.lt_irrefl, if_false]
      exact ih (received + c) last

theorem dlLoop_sum_zero (total : ℕ) :
    ∀ (chunks : List ℕ), chunks.sum = 0 →
      ∀ (received : ℕ) (last : ℤ),
        dlLoop total chunks received last = ([], last) := by
  intro chunks
  induction chunks with
  | nil => intro _ received last; rfl
  | cons c cs ih =>
    intro hsum received last
    simp only [List.sum_cons] at hsum
    have hc : c = 0 := by omega
    have hcs : cs.sum = 0 := by omega
    simp only [dlLoop, hc, if_pos rfl]
    exact ih hcs received last

theorem dlLoop_mem_gt (total : ℕ) :
    ∀ (chunks : List ℕ) (received : ℕ) (last : ℤ),
      ∀ x ∈ (dlLoop total chunks received last).1, last < (x : ℤ) := by
  intro chunks
  induction chunks with
  | nil => intro received last x hx; simp [dlLoop] at hx
  | cons c cs ih =>
    intro received last x hx
    simp only [dlLoop] at hx
    split at hx
    · exact ih received last x hx
    · split at hx
      · split at hx
        · rename_i hlt
          simp only [List.mem_cons] at hx
          rcases hx with rfl | hx
          · exact hlt
          · exact lt_trans hlt (ih (received + c) _ x hx)
        · exact ih (received + c) last x hx
      · exact ih (received + c) last x hx

theorem dlLoop_pairwise (total : ℕ) :
    ∀ (chunks : List ℕ) (received : ℕ) (last : ℤ),
      (dlLoop total chunks received last).1.Pairwise (· < ·) := by
  intro chunks
  induction chunks with
  | nil => intro received last; simp [dlLoop]
  | cons c cs ih =>
    intro received last
    simp only [dlLoop]
    split
    · exact ih received last
    · split
      · split
        · refine List.Pairwise.cons ?_ (ih (received + c) _)
          intro x hx
          exact_mod_cast dlLoop_mem_gt total cs (received + c) _ x hx
        · exact ih (received + c) last
      · exact ih (received + c) last

theorem dlLoop_mem_ex (total : ℕ) :
    ∀ (chunks : List ℕ) (received : ℕ) (last : ℤ),
      ∀ x ∈ (dlLoop total chunks received last).1,
        ∃ r2 : ℕ, received < r2 ∧ r2 ≤ received + chunks.sum ∧
          x = pct total r2 := by
  intro chunks
  induction chunks with
  | nil => intro received last x hx; simp [dlLoop] at hx
  | cons c cs ih =>
    intro received last x hx
    simp only [dlLoop] at hx
    split at hx
    · rename_i hc
      obtain ⟨r2, h1, h2, h3⟩ := ih received last x hx
      exact ⟨r2, h1, by simp only [List.sum_cons]; omega, h3⟩
    · rename_i hc
      have hc : 0 < c := Nat.pos_of_ne_zero hc
      split at hx
      · split at hx
        · simp only [List.mem_cons] at hx
          rcases hx with rfl | hx
          · exact ⟨received + c, by omega, by simp only [List.sum_cons]; omega, rfl⟩
          · obtain ⟨r2, h1, h2, h3⟩ := ih (received + c) _ x hx
            exact ⟨r2, by omega, by simp only [List.sum_cons]; omega, h3⟩
        · obtain ⟨r2, h1, h2, h3⟩ := ih (received + c) last x hx
          exact ⟨r2, by omega, by simp only [List.sum_cons]; omega, h3⟩
      · obtain ⟨r2, h1, h2, h3⟩ := ih (received + c) last x hx
        exact ⟨r2, by omega, by simp only [List.sum_cons]; omega, h3⟩

theorem dlLoop_complete (total : ℕ) (ht : 0 < total) :
    ∀ (chunks : List ℕ) (received : ℕ) (last : ℤ),
      received < total → received + chunks.sum = total → last < 100 →
      (dlLoop total chunks received last).2 = 100 ∧
      (dlLoop total chunks received last).1.getLast? = some 100 := by
  intro chunks
  induction chunks with
  | nil =>
    intro received last h1 h2 _
    simp only [List.sum_nil] at h2
    omega
  | cons c cs ih =>
    intro received last h1 h2 h3
    simp only [List.sum_cons] at h2
    by_cases hc : c = 0
    · have heq : dlLoop total (c :: cs) received last =
          dlLoop total cs received last := by
        simp [dlLoop, hc]
      rw [heq]
      exact ih received last h1 (by omega) h3
    · rcases Nat.lt_or_ge (received + c) total with hrt | hrt
      · have hp : pct total (received + c) < 100 := pct_lt_100 ht hrt
        by_cases hl : last < ((pct total (received + c) : ℕ) : ℤ)
        · have heq : dlLoop total (c :: cs) received last =
              (pct total (received + c) ::
                 (dlLoop total cs (received + c)
                   ((pct total (received + c) : ℕ) : ℤ)).1,
               (dlLoop total cs (received + c)
                 ((pct total (received + c) : ℕ) : ℤ)).2) := by
            simp [dlLoop, hc, ht, hl]
          rw [heq]
          obtain ⟨ha, hb⟩ := ih (received + c) ((pct total (received + c) : ℕ) : ℤ)
            hrt (by omega) (by exact_mod_cast hp)
          refine ⟨ha, ?_⟩
          rcases hnil : (dlLoop total cs (received + c)
              ((pct total (received + c) : ℕ) : ℤ)).1 with _ | ⟨y, ys⟩
          · rw [hnil] at hb; simp at hb
          · rw [hnil] at hb
            simp only [List.getLast?_cons_cons]
            exact hb
        · have heq : dlLoop total (c :: cs) received last =
              dlLoop total cs (received + c) last := by
            simp [dlLoop, hc, ht, hl]
          rw [heq]
          exact ih (received + c) last hrt (by omega) h3
      · have hrt2 : received + c = total := by omega
        have hp : pct total (received + c) = 100 := by rw [hrt2]; exact pct_self ht
        have hl : last < ((pct total (received + c) : ℕ) : ℤ) := by
          rw [hp]; exact_mod_cast h3
        have hcs : cs.sum = 0 := by omega
        have heq : dlLoop total (c :: cs) received last =
            (pct total (received + c) ::
               (dlLoop total cs (received + c)
                 ((pct total (received + c) : ℕ) : ℤ)).1,
             (dlLoop total cs (received + c)
               ((pct total (received + c) : ℕ) : ℤ)).2) := by
          simp [dlLoop, hc, ht, hl]
        rw [heq, dlLoop_sum_zero total cs hcs]
        simp [hp]

/-! ## Strictly-increasing length bound -/

theorem pairwise_lt_length_le (l : List ℕ) (hp : l.Pairwise (· < ·))
    (hb : ∀ x ∈ l, x ≤ 100) : l.length ≤ 101 := by
  have hnd : l.Nodup := hp.imp (fun h => Nat.ne_of_lt h)
  have hcard : l.toFinset.card = l.length := List.toFinset_card_of_nodup hnd
  have hsub : l.toFinset ⊆ Finset.range 101 := by
    intro a ha
    rw [List.mem_toFinset] at ha
    exact Finset.mem_range.mpr (Nat.lt_succ_of_le (hb a ha))
  calc l.length = l.toFinset.card := hcard.symm
    _ ≤ (Finset.range 101).card := Finset.card_le_card hsub
    _ = 101 := Finset.card_range 101

/-! ## Claim C2: progress monotonicity -/

/-- Claim C2: for any sequence of chunk sizes summing to a declared
positive total, the percentages passed to the progress callback by
`download_file` are strictly increasing (non-decreasing with no
duplicates), terminate at exactly 100, and number at most 101
regardless of the number of chunks. -/
theorem progress_monotone (total : ℕ) (chunks : List ℕ)
    (ht : 0 < total) (hs : chunks.sum = total) :
    (downloadProgress total chunks).Pairwise (· < ·) ∧
    (downloadProgress total chunks).getLast? = some 100 ∧
    (downloadProgress total chunks).length ≤ 101 := by
  obtain ⟨ha, hb⟩ := dlLoop_complete total ht chunks 0 (-1) ht (by omega) (by norm_num)
  have hout : downloadProgress total chunks = (dlLoop total chunks 0 (-1)).1 := by
    unfold downloadProgress
    simp only []
    rw [ha]
    simp
  have hpw := dlLoop_pairwise total chunks 0 (-1)
  have hbound : ∀ x ∈ (dlLoop total chunks 0 (-1)).1, x ≤ 100 := by
    intro x hx
    obtain ⟨r2, _, hr2, hx⟩ := dlLoop_mem_ex total chunks 0 (-1) x hx
    rw [hx]
    exact pct_le_100 ht (by omega)
  refine ⟨hout ▸ hpw, hout ▸ hb, hout ▸ pairwise_lt_length_le _ hpw hbound⟩

/-- Witness for C2: a 10-byte transfer delivered as chunks 3, 3, 4. -/
theorem progress_monotone_witness :
    (downloadProgress 10 [3, 3, 4]).Pairwise (· < ·) ∧
    (downloadProgress 10 [3, 3, 4]).getLast? = some 100 ∧
    (downloadProgress 10 [3, 3, 4]).length ≤ 101 :=
  progress_monotone 10 [3, 3, 4] (by decide) (by decide)

/-! ## Claim C4: percentage semantics -/

/-- Counterexample for C4 as stated: a declared total of 1 byte with an
actual body of 2 bytes makes `download_file` report the percentage 200,
exceeding 100. -/
theorem percent_above_100 : downloadProgress 1 [2] = [200] := by
  simp [downloadProgress, dlLoop, pct_eq]

/-- Claim C4 amended: the reported percentage equals
`received * 100 / total` by integer floor division (the exact-value
floor of `received / total * 100`), and every reported percentage is at
most 100 provided the bytes received do not exceed the declared total;
when the body outruns the declared total the report can exceed 100. -/
theorem percent_floor_semantics (total : ℕ) (chunks : List ℕ)
    (ht : 0 < total) (hs : chunks.sum ≤ total) :
    (∀ received : ℕ, pct total received = received * 100 / total) ∧
    ∀ x ∈ downloadProgress total chunks,
      x ≤ 100 ∧ ∃ r ≤ total, x = pct total r := by
  refine ⟨fun received => pct_eq total received, ?_⟩
  intro x hx
  have hmem : ∀ y ∈ (dlLoop total chunks 0 (-1)).1,
      y ≤ 100 ∧ ∃ r ≤ total, y = pct total r := by
    intro y hy
    obtain ⟨r2, _, hr2, hy⟩ := dlLoop_mem_ex total chunks 0 (-1) y hy
    subst hy
    exact ⟨pct_le_100 ht (by omega), ⟨r2, by omega, rfl⟩⟩
  unfold downloadProgress at hx
  simp only [] at hx
  by_cases hcond : 0 < total ∧ (dlLoop total chunks 0 (-1)).2 < 100
  · rw [if_pos hcond] at hx
    rcases List.mem_append.mp hx with hx | hx
    · exact hmem x hx
    · simp only [List.mem_singleton] at hx
      subst hx
      exact ⟨le_refl 100, ⟨total, le_refl total, (pct_self ht).symm⟩⟩
  · rw [if_neg hcond] at hx
    exact hmem x hx

/-- Witness for the amended C4: a 10-byte total received in two 5-byte
chunks. -/
theorem percent_floor_semantics_witness :
    (∀ received : ℕ, pct 10 received = received * 100 / 10) ∧
    ∀ x ∈ downloadProgress 10 [5, 5],
      x ≤ 100 ∧ ∃ r ≤ 10, x = pct 10 r :=
  percent_floor_semantics 10 [5, 5] (by decide) (by decide)

/-! ## Claim C8: unknown-size silence -/

/-- Claim C8: when the total size is 0 (unknown), `download_file`
produces zero progress events, including no final 100% event, for any
chunk sequence. -/
theorem unknown_size_silent (chunks : List ℕ) :
    downloadProgress 0 chunks = [] := by
  unfold downloadProgress
  rw [dlLoop_zero_total]
  simp

/-! ## Rate limiter lemmas and claims C5, C10 -/

theorem check_rate_limit_reject (st : RateState) (user : ℤ) (now : ℚ)
    (h : now - (st user).getD 0 < REQUEST_COOLDOWN) :
    check_rate_limit st user now =
      (st, false, pyTrunc (REQUEST_COOLDOWN - (now - (st user).getD 0))) := by
  unfold check_rate_limit
  simp only []
  rw [if_pos h]

theorem check_rate_limit_allow (st : RateState) (user : ℤ) (now : ℚ)
    (h : ¬ (now - (st user).getD 0 < REQUEST_COOLDOWN)) :
    check_rate_limit st user now =
      (fun u => if u = user then some now else st u, true, 0) := by
  unfold check_rate_limit
  simp only []
  rw [if_neg h]

/-- Claim C10: a `check_rate_limit` call that rejects leaves the
last-request map unchanged (a rejected request never resets or extends
the cooldown), and any call leaves the timestamps of all other
identities unchanged. -/
theorem rate_limit_frame (st : RateState) (user : ℤ) (now : ℚ) :
    ((check_rate_limit st user now).2.1 = false →
      (check_rate_limit st user now).1 = st) ∧
    (∀ other : ℤ, other ≠ user →
      (check_rate_limit st user now).1 other = st other) := by
  by_cases h : now - (st user).getD 0 < REQUEST_COOLDOWN
  · rw [check_rate_limit_reject st user now h]
    exact ⟨fun _ => rfl, fun other _ => rfl⟩
  · rw [check_rate_limit_allow st user now h]
    refine ⟨fun hfalse => by simp at hfalse, fun other hother => ?_⟩
    simp [hother]

theorem rate_limit_frame_witness :
    (check_rate_limit (fun _ => none) 7 5).1 = (fun _ => none) ∧
    (check_rate_limit (fun _ => none) 7 5).1 9 = (fun _ => none : RateState) 9 :=
  ⟨(rate_limit_frame (fun _ => none) 7 5).1
     (by norm_num [check_rate_limit, REQUEST_COOLDOWN]),
   (rate_limit_frame (fun _ => none) 7 5).2 9 (by decide)⟩

/-- Counterexample for C5 as stated: after a first admitted call at
time 100, a second call at time 109.5 — within the 10-unit cooldown —
returns `(false, 0)`: the wait is not strictly positive, because
`int(10 - 9.5)` truncates to 0. -/
theorem rate_limit_wait_zero :
    (check_rate_limit (check_rate_limit (fun _ => none) 7 100).1 7 (219/2)).2
      = (false, 0) := by
  norm_num [check_rate_limit, REQUEST_COOLDOWN, pyTrunc]

/-- Claim C5 amended: after an admitted call at `t1`, a second call for
the same identity within the cooldown window returns `(false, wait)`
with `wait = int(cooldown − elapsed) ≥ 0`, strictly positive whenever
at least one whole time unit of cooldown remains; a call made once the
cooldown has elapsed returns `(true, 0)`. -/
theorem rate_limit_cooldown (st : RateState) (user : ℤ) (t1 t2 : ℚ)
    (h1 : (check_rate_limit st user t1).2.1 = true) :
    ((check_rate_limit st user t1).1 user = some t1) ∧
    (t2 - t1 < REQUEST_COOLDOWN →
      (check_rate_limit (check_rate_limit st user t1).1 user t2).2.1 = false ∧
      (check_rate_limit (check_rate_limit st user t1).1 user t2).2.2 =
        pyTrunc (REQUEST_COOLDOWN - (t2 - t1)) ∧
      0 ≤ (check_rate_limit (check_rate_limit st user t1).1 user t2).2.2 ∧
      (t2 - t1 ≤ REQUEST_COOLDOWN - 1 →
        0 < (check_rate_limit (check_rate_limit st user t1).1 user t2).2.2)) ∧
    (REQUEST_COOLDOWN ≤ t2 - t1 →
      (check_rate_limit (check_rate_limit st user t1).1 user t2).2 = (true, 0)) := by
  have hfirst : ¬ (t1 - (st user).getD 0 < REQUEST_COOLDOWN) := by
    intro hcon
    rw [check_rate_limit_reject st user t1 hcon] at h1
    simp at h1
  have hst1 : (check_rate_limit st user t1).1 user = some t1 := by
    rw [check_rate_limit_allow st user t1 hfirst]
    simp
  refine ⟨hst1, ?_, ?_⟩
  · intro hin
    have hlt : t2 - ((check_rate_limit st user t1).1 user).getD 0
        < REQUEST_COOLDOWN := by
      rw [hst1, Option.getD_some]
      exact hin
    rw [check_rate_limit_reject ((check_rate_limit st user t1).1) user t2 hlt]
    simp only [hst1, Option.getD_some]
    have h0 : (0 : ℚ) ≤ REQUEST_COOLDOWN - (t2 - t1) := by
      unfold REQUEST_COOLDOWN at hin ⊢
      linarith
    refine ⟨trivial, trivial, ?_, ?_⟩
    · unfold pyTrunc
      rw [if_pos h0]
      exact Int.floor_nonneg.mpr h0
    · intro hnine
      unfold pyTrunc
      rw [if_pos h0]
      have hfl : (1 : ℤ) ≤ ⌊REQUEST_COOLDOWN - (t2 - t1)⌋ := by
        apply Int.le_floor.mpr
        push_cast
        unfold REQUEST_COOLDOWN at hnine ⊢
        linarith
      omega
  · intro hout
    have hge : ¬ (t2 - ((check_rate_limit st user t1).1 user).getD 0
        < REQUEST_COOLDOWN) := by
      rw [hst1, Option.getD_some]
      linarith
    rw [check_rate_limit_allow ((check_rate_limit st user t1).1) user t2 hge]

theorem rate_limit_cooldown_witness :
    ((check_rate_limit (fun _ => none) 7 100).1 7 = some 100) ∧
    ((109 : ℚ) - 100 < REQUEST_COOLDOWN →
      (check_rate_limit (check_rate_limit (fun _ => none) 7 100).1 7 109).2.1 = false ∧
      (check_rate_limit (check_rate_limit (fun _ => none) 7 100).1 7 109).2.2 =
        pyTrunc (REQUEST_COOLDOWN - ((109 : ℚ) - 100)) ∧
      0 ≤ (check_rate_limit (check_rate_limit (fun _ => none) 7 100).1 7 109).2.2 ∧
      ((109 : ℚ) - 100 ≤ REQUEST_COOLDOWN - 1 →
        0 < (check_rate_limit (check_rate_limit (fun _ => none) 7 100).1 7 109).2.2)) ∧
    (REQUEST_COOLDOWN ≤ (109 : ℚ) - 100 →
      (check_rate_limit (check_rate_limit (fun _ => none) 7 100).1 7 109).2 = (true, 0)) :=
  rate_limit_cooldown (fun _ => none) 7 100 109
    (by norm_num [check_rate_limit, REQUEST_COOLDOWN])

/-! ## Claims C7 (throttle), C6 (probe), C1 (cleanup) -/

/-- Claim C7: for each progress event of a job, the bridge forwards it
if and only if at least `MIN_EDIT_DELAY` (2 time units) has elapsed
since the last forwarded update for that job or the percent is 100; a
suppressed event is dropped (the run continues with the timestamp
unchanged, never delivering it later).  The first event is forwarded,
the throttle timestamp defaulting to 0 and wall-clock time being at
least the delay. -/
theorem bridge_throttle (last t : ℚ) (p : ℕ) (rest : List (ℚ × ℕ)) (hp : p ≤ 100) :
    (bridgeRun last ((t, p) :: rest) =
      if MIN_EDIT_DELAY ≤ t - last ∨ p = 100 then (t, p) :: bridgeRun t rest
      else bridgeRun last rest) ∧
    (MIN_EDIT_DELAY ≤ t →
      bridgeRun 0 ((t, p) :: rest) = (t, p) :: bridgeRun t rest) := by
  constructor
  · by_cases hcond : t - last < MIN_EDIT_DELAY ∧ p < 100
    · have hneg : ¬ (MIN_EDIT_DELAY ≤ t - last ∨ p = 100) := by
        push_neg
        exact ⟨by linarith [hcond.1], by omega⟩
      rw [if_neg hneg]
      show (if t - last < MIN_EDIT_DELAY ∧ p < 100 then bridgeRun last rest
            else (t, p) :: bridgeRun t rest) = bridgeRun last rest
      rw [if_pos hcond]
    · have hpos : MIN_EDIT_DELAY ≤ t - last ∨ p = 100 := by
        rcases not_and_or.mp hcond with h | h
        · exact Or.inl (not_lt.mp h)
        · exact Or.inr (by omega)
      rw [if_pos hpos]
      show (if t - last < MIN_EDIT_DELAY ∧ p < 100 then bridgeRun last rest
            else (t, p) :: bridgeRun t rest) = (t, p) :: bridgeRun t rest
      rw [if_neg hcond]
  · intro h2
    show (if t - 0 < MIN_EDIT_DELAY ∧ p < 100 then bridgeRun 0 rest
          else (t, p) :: bridgeRun t rest) = (t, p) :: bridgeRun t rest
    rw [if_neg]
    intro hcon
    have h3 := hcon.1
    rw [sub_zero] at h3
    exact absurd h2 (not_le.mpr h3)

theorem bridge_throttle_witness :
    (bridgeRun 0 (((5 : ℚ), 50) :: []) =
      if MIN_EDIT_DELAY ≤ (5 : ℚ) - 0 ∨ (50 : ℕ) = 100
      then ((5 : ℚ), 50) :: bridgeRun 5 []
      else bridgeRun 0 []) ∧
    (MIN_EDIT_DELAY ≤ (5 : ℚ) →
      bridgeRun 0 (((5 : ℚ), 50) :: []) = ((5 : ℚ), 50) :: bridgeRun 5 []) :=
  bridge_throttle 0 5 50 [] (by decide)

/-- Counterexample for C6 as stated: a probe response whose
`Content-Length` header is the non-numeric string `"abc"` makes the
probe step of `download_file` raise `ValueError` (uncaught), rather
than proceeding. -/
theorem probe_raises_on_bad_length :
    probeStep "http://host/file.bin" (Probe.response none (some "abc")) =
      Except.error DlError.parseError := by
  rfl

/-- Claim C6 amended: a probe transport failure never raises — the
transfer proceeds with the URL-derived filename and total size 0 — and
a probe response is handled without raising provided its
`Content-Length` header is absent or a valid integer literal. -/
theorem probe_degrades (url : String) (cd : Option String) (cl : Option String)
    (hcl : ∀ v, cl = some v → (pyInt v).isSome) :
    (probeStep url Probe.reqFailure =
      Except.ok (extract_filename_from_url url, 0)) ∧
    (∃ filename total,
      probeStep url (Probe.response cd cl) = Except.ok (filename, total)) := by
  refine ⟨rfl, ?_⟩
  rcases cl with _ | v
  · exact ⟨_, 0, rfl⟩
  · obtain ⟨n, hn⟩ := Option.isSome_iff_exists.mp (hcl v rfl)
    refine ⟨(match cd with | some f => f | none => extract_filename_from_url url),
      n, ?_⟩
    simp only [probeStep, hn]

theorem probe_degrades_witness :
    (probeStep "http://h/a.txt" Probe.reqFailure =
      Except.ok (extract_filename_from_url "http://h/a.txt", 0)) ∧
    (∃ filename total,
      probeStep "http://h/a.txt" (Probe.response none (some "123")) =
        Except.ok (filename, total)) :=
  probe_degrades "http://h/a.txt" none (some "123")
    (by intro v hv; cases hv; decide)

theorem cleanupPartial_clears (fs : FS) (p : String) :
    cleanupPartial fs p p = false := by
  unfold cleanupPartial fsRemove
  cases hfs : fs p
  · simp [hfs]
  · simp [hfs]

/-- Claim C1: for every failure kind of the transfer (connect/read
timeout, non-2xx HTTP status, connection failure, local filesystem
write failure, any other request failure), after `download_file`
propagates the classified error, no file remains at the computed local
path (the temp directory joined with the resolved filename) — both for
failures before the local file is opened and for failures mid-stream
after chunks were written. -/
theorem download_cleanup (fs : FS) (url tempDir : String) (probe : Probe)
    (filename : String) (total : ℤ)
    (hp : probeStep url probe = Except.ok (filename, total)) :
    (∀ k : FailKind,
      (download_file fs url tempDir probe (TransferResult.failRequest k)).2 =
        Except.error (classify k) ∧
      (download_file fs url tempDir probe (TransferResult.failRequest k)).1
        (pathJoin tempDir filename) = false) ∧
    (∀ (written : List ℕ) (k : FailKind),
      (download_file fs url tempDir probe
          (TransferResult.failStream written k)).2 =
        Except.error (classify k) ∧
      (download_file fs url tempDir probe
          (TransferResult.failStream written k)).1
        (pathJoin tempDir filename) = false) := by
  constructor
  · intro k
    unfold download_file
    rw [hp]
    exact ⟨rfl, cleanupPartial_clears fs (pathJoin tempDir filename)⟩
  · intro written k
    unfold download_file
    rw [hp]
    exact ⟨rfl, cleanupPartial_clears
      (fsWrite fs (pathJoin tempDir filename)) (pathJoin tempDir filename)⟩

theorem download_cleanup_witness :
    (download_file (fun _ => false) "http://h/a.txt" "/tmp" Probe.reqFailure
       (TransferResult.failStream [5] FailKind.timeout)).2 =
      Except.error (classify FailKind.timeout) ∧
    (download_file (fun _ => false) "http://h/a.txt" "/tmp" Probe.reqFailure
       (TransferResult.failStream [5] FailKind.timeout)).1
      (pathJoin "/tmp" (extract_filename_from_url "http://h/a.txt")) = false :=
  (download_cleanup (fun _ => false) "http://h/a.txt" "/tmp" Probe.reqFailure
      (extract_filename_from_url "http://h/a.txt") 0 rfl).2 [5] FailKind.timeout

/-! ## Claim C9: URL filename resolution -/

theorem pySplit_ne_nil (sep : Char) (l : List Char) : pySplit sep l ≠ [] := by
  cases l with
  | nil => exact List.cons_ne_nil _ _
  | cons c cs =>
    simp only [pySplit]
    split
    · exact List.cons_ne_nil _ _
    · split
      · exact List.cons_ne_nil _ _
      · exact List.cons_ne_nil _ _

theorem takeWhile_append_last_false (p : Char → Bool) (y : Char)
    (hy : p y = false) :
    ∀ xs : List Char, (xs ++ [y]).takeWhile p = xs.takeWhile p := by
  intro xs
  induction xs with
  | nil => simp [List.takeWhile_cons, hy]
  | cons x xs ih =>
    by_cases hx : p x
    · simp [List.takeWhile_cons, hx, ih]
    · simp [List.takeWhile_cons, hx]

theorem takeWhile_append_stop (p : Char → Bool) :
    ∀ (xs ys : List Char), (∃ x ∈ xs, p x = false) →
      (xs ++ ys).takeWhile p = xs.takeWhile p := by
  intro xs
  induction xs with
  | nil =>
    rintro ys ⟨x, hx, _⟩
    simp at hx
  | cons a xs ih =>
    rintro ys ⟨x, hx, hpx⟩
    by_cases ha : p a
    · simp only [List.cons_append, List.takeWhile_cons, ha, if_true]
      rcases List.mem_cons.mp hx with rfl | hx
      · rw [ha] at hpx; simp at hpx
      · rw [ih ys ⟨x, hx, hpx⟩]
    · simp [List.takeWhile_cons, ha]

theorem pySplit_not_mem (sep : Char) :
    ∀ l : List Char, sep ∉ l → pySplit sep l = [l] := by
  intro l
  induction l with
  | nil => intro _; rfl
  | cons c cs ih =>
    intro h
    have hc : c ≠ sep := by
      rintro rfl
      exact h (List.mem_cons_self c cs)
    have hcs : sep ∉ cs := fun hm => h (List.mem_cons_of_mem _ hm)
    simp [pySplit, hc, ih hcs]

theorem pySplit_eq_singleton (sep : Char) :
    ∀ (l t : List Char), pySplit sep l = [t] → t = l ∧ sep ∉ l := by
  intro l
  induction l with
  | nil =>
    intro t h
    simp only [pySplit] at h
    exact ⟨(List.cons.injEq _ _ _ _ ▸ h).1.symm, by simp⟩
  | cons c cs ih =>
    intro t h
    by_cases hc : c = sep
    · subst hc
      rcases hsp : pySplit c cs with _ | ⟨u, us⟩
      · exact absurd hsp (pySplit_ne_nil c cs)
      · rw [show pySplit c (c :: cs) = [] :: u :: us by simp [pySplit, hsp]] at h
        injection h with h1 h2
        exact absurd h2 (List.cons_ne_nil u us)
    · simp only [pySplit, if_neg hc] at h
      rcases hsp : pySplit sep cs with _ | ⟨t1, ts1⟩
      · exact absurd hsp (pySplit_ne_nil sep cs)
      · rw [hsp] at h
        simp only [List.cons.injEq] at h
        obtain ⟨ht, hts⟩ := h
        obtain ⟨h1, h2⟩ := ih t1 (by rw [hsp, hts])
        refine ⟨by rw [← ht, h1], ?_⟩
        intro hm
        rcases List.mem_cons.mp hm with hms | hm
        · exact hc hms.symm
        · exact h2 hm

theorem pySplit_getLast (sep : Char) :
    ∀ l : List Char, (pySplit sep l).getLast? =
      some ((l.reverse.takeWhile (fun c => c ≠ sep)).reverse) := by
  intro l
  induction l with
  | nil => rfl
  | cons c cs ih =>
    by_cases hc : c = sep
    · subst hc
      rcases hsp : pySplit c cs with _ | ⟨u, us⟩
      · exact absurd hsp (pySplit_ne_nil c cs)
      · have hlhs : pySplit c (c :: cs) = [] :: u :: us := by
          simp [pySplit, hsp]
        rw [hlhs, List.getLast?_cons_cons, ← hsp, ih, List.reverse_cons,
          takeWhile_append_last_false _ c (by simp)]
    · rcases hsp : pySplit sep cs with _ | ⟨t, ts⟩
      · exact absurd hsp (pySplit_ne_nil sep cs)
      · have hlhs : pySplit sep (c :: cs) = (c :: t) :: ts := by
          simp [pySplit, hc, hsp]
        rw [hlhs]
        rcases ts with _ | ⟨u, us⟩
        · obtain ⟨h1, h2⟩ := pySplit_eq_singleton sep cs t hsp
          rw [h1]
          have hall : ((cs.reverse ++ [c]).takeWhile (fun x => x ≠ sep)) =
              cs.reverse ++ [c] := by
            rw [List.takeWhile_eq_self_iff]
            intro x hx
            rcases List.mem_append.mp hx with hx | hx
            · simpa using fun e => h2 (by rw [← e]; exact List.mem_reverse.mp hx)
            · simp only [List.mem_singleton] at hx
              subst hx
              simpa using hc
          rw [List.reverse_cons, hall]
          simp
        · rw [List.getLast?_cons_cons]
          have hih := ih
          rw [hsp, List.getLast?_cons_cons] at hih
          have hmem : sep ∈ cs := by
            by_contra hnm
            rw [pySplit_not_mem sep cs hnm] at hsp
            simp at hsp
          rw [List.reverse_cons,
            takeWhile_append_stop _ _ _ ⟨sep, List.mem_reverse.mpr hmem, by simp⟩]
          exact hih

theorem pySplit_head (sep : Char) :
    ∀ l : List Char, (pySplit sep l).head? =
      some (l.takeWhile (fun c => c ≠ sep)) := by
  intro l
  induction l with
  | nil => rfl
  | cons c cs ih =>
    by_cases hc : c = sep
    · subst hc
      simp [pySplit, List.takeWhile_cons]
    · rcases hsp : pySplit sep cs with _ | ⟨t, ts⟩
      · exact absurd hsp (pySplit_ne_nil sep cs)
      · have hlhs : pySplit sep (c :: cs) = (c :: t) :: ts := by
          simp [pySplit, hc, hsp]
        rw [hlhs]
        have hih := ih
        rw [hsp] at hih
        simp only [List.head?_cons, Option.some.injEq] at hih
        simp only [List.head?_cons, Option.some.injEq, List.takeWhile_cons]
        simp [hc, hih]

/-- Claim C9: with no header-derived filename, the resolved filename is
the last path segment of the URL stripped of any query string (then
sanitized), with the fixed default when that segment is empty; in
particular `https://example.org/files/report.pdf?token=xyz` resolves to
`report.pdf`. -/
theorem url_filename_resolution :
    (∀ url : String, extract_filename_from_url url = specResolveName url) ∧
    extract_filename_from_url "https://example.org/files/report.pdf?token=xyz" =
      "report.pdf" := by
  constructor
  · intro url
    simp only [extract_filename_from_url, specResolveName, specLastSegment,
      specStripQuery, pySplit_getLast, pySplit_head]
  · decide

/-! ## Claim C3: sanitizer bound and idempotence -/

/-- A filename whose extension is 300 characters long: `a.bbb...b`. -/
def longExtName : String :=
  ⟨'a' :: '.' :: List.replicate 300 'b'⟩

/-- A 257-character name alternating `a` and space, ending in `a`. -/
def altSpaceName : String :=
  ⟨List.flatten (List.replicate 128 ['a', ' ']) ++ ['a']⟩

set_option maxRecDepth 4000 in
/-- Claim C3 fails on the code (code bug): `sanitize_filename` returns
the 302-character name `a.bbb…b` unchanged — `name[:250] + ext` does
not bound a long extension, contradicting the code's own comment
"Limit filename length (255 is max on most systems)" — and applying the
sanitizer twice to a 257-character name of alternating `a`/space gives
a different result than applying it once, because truncation can expose
a trailing space. -/
theorem sanitize_length_unbounded :
    (sanitize_filename longExtName = longExtName ∧
     255 < (sanitize_filename longExtName).length) ∧
    sanitize_filename (sanitize_filename altSpaceName) ≠
      sanitize_filename altSpaceName := by
  refine ⟨⟨?_, ?_⟩, ?_⟩
  · decide
  · decide
  · decide

end LeechBot
